import Mathlib

/-!
Verification of the trdesign model core (src/tr/src/model.py) against its
natural-language specification.  The Python source is shallowly embedded:
numpy / jax array programs become Lean functions over ℚ-valued matrices
(indexed by Fin), elementwise array operations become pointwise functions,
and the transcendental primitives exp / log used by softmax are abstracted
as an explicit parameter record (their analytic properties are never needed
by the claims).  Fallible code paths are modelled with Option.
-/

namespace TrD

/-! ## GeometryBinner: `_np_get_6D_binned` and its helper `mtx2bins`
    (src/tr/src/model.py lines 214-231) -/

/-- np.linspace start stop num (endpoint=True): the list
    start + i * (stop - start)/(num - 1) for i = 0 .. num-1. -/
def linspace (start stop : ℚ) (num : ℕ) : List ℚ :=
  (List.range num).map (fun (i : ℕ) => start + (i : ℚ) * ((stop - start) / ((num : ℚ) - 1)))

/-- np.digitize x bins (bins increasing, right=False): the index i with
    bins[i-1] <= x < bins[i], i.e. the number of bin edges <= x. -/
def digitize (x : ℚ) (bins : List ℚ) : ℕ :=
  (bins.filter (fun b => decide (b ≤ x))).length

/-- Row idx of np.eye (nbins+1) with the last column dropped: a length-nbins
    vector with a single 1 at position idx (all zero when idx = nbins). -/
def binVec (nbins : ℕ) (idx : ℕ) : Fin nbins → ℚ :=
  fun j => if (j : ℕ) = idx then 1 else 0

/-- One entry of `mtx2bins` (model.py lines 221-225): digitize against
    np.linspace(start, end, nbins), cast to uint8, zero the index where the
    mask holds, then one-hot with np.eye(nbins+1)[..][...,:-1]. -/
def mtx2bins (x : ℚ) (start stop : ℚ) (nbins : ℕ) (mask : Bool) : Fin nbins → ℚ :=
  binVec nbins (if mask then 0 else digitize x (linspace start stop nbins) % 256)

/-- The four raw pairwise geometry matrices returned by `_np_get_6D`
    (after squeeze): a distance and three angles per residue pair. -/
structure Ref6D (L : ℕ) where
  dist : Fin L → Fin L → ℚ
  omega : Fin L → Fin L → ℚ
  theta : Fin L → Fin L → ℚ
  phi : Fin L → Fin L → ℚ

/-- model.py line 227: mask = (ref["dist"] > 20) | (np.eye(n) == 1),
    computed once from the distance matrix and the identity pattern. -/
def pairMask (r : Ref6D L) (i j : Fin L) : Bool :=
  decide (20 < r.dist i j) || decide (i = j)

/-- The binned geometry distributions (one-hot bins 37/25/25/13). -/
structure Binned (L : ℕ) where
  dist : Fin L → Fin L → Fin 37 → ℚ
  omega : Fin L → Fin L → Fin 25 → ℚ
  theta : Fin L → Fin L → Fin 25 → ℚ
  phi : Fin L → Fin L → Fin 13 → ℚ

/-- `_np_get_6D_binned` (model.py lines 227-231) applied to the raw geometry:
    the shared mask is applied uniformly to all four channels.  piQ stands for
    np.pi (its only relevant property is 0 < piQ). -/
def np_get_6D_binned (piQ : ℚ) (r : Ref6D L) : Binned L :=
  { dist := fun i j => mtx2bins (r.dist i j) 2 20 37 (pairMask r i j)
    omega := fun i j => mtx2bins (r.omega i j) (-piQ) piQ 25 (pairMask r i j)
    theta := fun i j => mtx2bins (r.theta i j) (-piQ) piQ 25 (pairMask r i j)
    phi := fun i j => mtx2bins (r.phi i j) 0 piQ 13 (pairMask r i j) }

/-- Modelled from the spec: `_np_get_6D` (af/src/prep's companion in
    af/src/misc.py, not under src/) computes the raw pairwise geometry from
    atom coordinates and the atom-presence mask; per the spec ("pairs with
    invalid/missing geometry are masked to a reserved no-contact bin",
    "where the atom mask marks missing atoms ... forced into the first bin"),
    a pair involving missing atoms receives a sentinel distance far beyond
    the 20.0 contact cutoff, so the downstream distance mask catches it. -/
def np_get_6D (geom : Ref6D L) (missing : Fin L → Fin L → Bool) : Ref6D L :=
  { geom with dist := fun i j => if missing i j then 10 ^ 8 else geom.dist i j }

/-- The full GeometryBinner pipeline: raw geometry (with missing-atom
    sentinel) followed by `_np_get_6D_binned`. -/
def np_get_6D_binned_full (piQ : ℚ) (geom : Ref6D L) (missing : Fin L → Fin L → Bool) :
    Binned L :=
  np_get_6D_binned piQ (np_get_6D geom missing)

/-! ### Binning lemmas -/

lemma binVec_nonneg (n idx : ℕ) (c : Fin n) : 0 ≤ binVec n idx c := by
  unfold binVec; split <;> norm_num

lemma binVec_sum (n idx : ℕ) :
    (∑ c : Fin n, binVec n idx c) = if idx < n then 1 else 0 := by
  unfold binVec
  rw [Fin.sum_univ_eq_sum_range (fun i => if i = idx then (1 : ℚ) else 0) n]
  rw [Finset.sum_ite_eq' (Finset.range n) idx (fun _ => (1 : ℚ))]
  simp [Finset.mem_range]

lemma linspace_length (s e : ℚ) (n : ℕ) : (linspace s e n).length = n := by
  unfold linspace
  rw [List.length_map, List.length_range]

lemma mem_linspace_le (s e : ℚ) (n : ℕ) (hse : s ≤ e) (hn : 2 ≤ n) :
    ∀ b ∈ linspace s e n, b ≤ e := by
  intro b hb
  unfold linspace at hb
  obtain ⟨i, hi, rfl⟩ := List.mem_map.mp hb
  have hi' : i < n := List.mem_range.mp hi
  have hn1 : (0 : ℚ) < (n : ℚ) - 1 := by
    have : (2 : ℚ) ≤ (n : ℚ) := by exact_mod_cast hn
    linarith
  have hstep : (0 : ℚ) ≤ (e - s) / ((n : ℚ) - 1) :=
    div_nonneg (by linarith) (le_of_lt hn1)
  have hcast : (i : ℚ) ≤ (n : ℚ) - 1 := by
    have : (i : ℚ) + 1 ≤ (n : ℚ) := by exact_mod_cast hi'
    linarith
  have h1 : (i : ℚ) * ((e - s) / ((n : ℚ) - 1)) ≤ ((n : ℚ) - 1) * ((e - s) / ((n : ℚ) - 1)) :=
    mul_le_mul_of_nonneg_right hcast hstep
  have h2 : ((n : ℚ) - 1) * ((e - s) / ((n : ℚ) - 1)) = e - s := by
    field_simp
  linarith [h1, h2.le]

lemma mem_linspace_ge (s e : ℚ) (n : ℕ) (hse : s ≤ e) (hn : 2 ≤ n) :
    ∀ b ∈ linspace s e n, s ≤ b := by
  intro b hb
  unfold linspace at hb
  obtain ⟨i, _, rfl⟩ := List.mem_map.mp hb
  have hn1 : (0 : ℚ) < (n : ℚ) - 1 := by
    have : (2 : ℚ) ≤ (n : ℚ) := by exact_mod_cast hn
    linarith
  have hstep : (0 : ℚ) ≤ (e - s) / ((n : ℚ) - 1) :=
    div_nonneg (by linarith) (le_of_lt hn1)
  have hi : (0 : ℚ) ≤ (i : ℚ) := by positivity
  nlinarith [mul_nonneg hi hstep]

lemma stop_mem_linspace (s e : ℚ) (n : ℕ) (hn : 2 ≤ n) : e ∈ linspace s e n := by
  have h1n : 1 ≤ n := le_trans (by norm_num) hn
  have hmem : n - 1 ∈ List.range n := List.mem_range.mpr (by omega)
  unfold linspace
  refine List.mem_map.mpr ⟨n - 1, hmem, ?_⟩
  have hc : ((n - 1 : ℕ) : ℚ) = (n : ℚ) - 1 := by
    push_cast [Nat.cast_sub h1n]; ring
  have hn1 : ((n : ℚ) - 1) ≠ 0 := by
    have : (2 : ℚ) ≤ (n : ℚ) := by exact_mod_cast hn
    linarith
  rw [hc]
  field_simp

lemma length_filter_lt_of_not {α : Type} (p : α → Bool) (l : List α) (e : α)
    (he : e ∈ l) (hpe : p e = false) : (l.filter p).length < l.length := by
  induction l with
  | nil => cases he
  | cons a t ih =>
    rcases List.mem_cons.mp he with h | h
    · subst h
      simp only [List.filter_cons, hpe, Bool.false_eq_true, if_neg, List.length_cons]
      exact Nat.lt_succ_of_le (List.length_filter_le p t)
    · by_cases hpa : p a = true
      · simp only [List.filter_cons, hpa, if_pos, List.length_cons]
        exact Nat.succ_lt_succ (ih h)
      · simp only [List.filter_cons, hpa, if_neg, List.length_cons]
        exact Nat.lt_succ_of_lt (ih h)

lemma digitize_le_length (x : ℚ) (bins : List ℚ) : digitize x bins ≤ bins.length :=
  List.length_filter_le _ _

/-- Below the lowest edge no edge is counted. -/
lemma digitize_eq_zero_of_lt (x s e : ℚ) (n : ℕ) (hse : s ≤ e) (hn : 2 ≤ n)
    (hx : x < s) : digitize x (linspace s e n) = 0 := by
  unfold digitize
  rw [List.length_eq_zero]
  rw [List.filter_eq_nil_iff]
  intro b hb
  have := mem_linspace_ge s e n hse hn b hb
  simp only [decide_eq_true_eq]
  intro hbx
  linarith

/-- The digitized index stays below nbins exactly when the value is strictly
    below the top edge; a value at or above the top edge is assigned index
    nbins (whose one-hot column is dropped). -/
lemma digitize_lt_iff (x s e : ℚ) (n : ℕ) (hse : s ≤ e) (hn : 2 ≤ n) :
    digitize x (linspace s e n) < n ↔ x < e := by
  constructor
  · intro h
    by_contra hxe
    push_neg at hxe
    have hall : (linspace s e n).filter (fun b => decide (b ≤ x)) = linspace s e n := by
      rw [List.filter_eq_self]
      intro b hb
      have := mem_linspace_le s e n hse hn b hb
      simp only [decide_eq_true_eq]
      linarith
    unfold digitize at h
    rw [hall, linspace_length] at h
    exact lt_irrefl n h
  · intro hxe
    have hmem := stop_mem_linspace s e n hn
    have hne : (fun b => decide (b ≤ x)) e = false := by
      simp only [decide_eq_false_iff_not]
      intro h; linarith
    have := length_filter_lt_of_not (fun b => decide (b ≤ x)) (linspace s e n) e hmem hne
    rw [linspace_length] at this
    exact this

lemma mtx2bins_nonneg (x s e : ℚ) (n : ℕ) (mask : Bool) (c : Fin n) :
    0 ≤ mtx2bins x s e n mask c := by
  unfold mtx2bins
  exact binVec_nonneg _ _ _

/-- The per-pair bin vector sums to 1 exactly when the pair is masked or the
    raw value is strictly below the top domain edge; otherwise the one-hot
    lands in the dropped overflow column and the vector is all zero. -/
lemma mtx2bins_sum (x s e : ℚ) (n : ℕ) (mask : Bool) (hse : s ≤ e) (hn : 2 ≤ n)
    (hn' : n < 256) :
    (∑ c : Fin n, mtx2bins x s e n mask c) =
      if mask = true ∨ x < e then 1 else 0 := by
  unfold mtx2bins
  cases mask with
  | true =>
    rw [if_pos rfl, binVec_sum, if_pos (by omega), if_pos (Or.inl rfl)]
  | false =>
    have hmod : digitize x (linspace s e n) % 256 = digitize x (linspace s e n) :=
      Nat.mod_eq_of_lt (lt_of_le_of_lt (by
        have := digitize_le_length x (linspace s e n)
        rwa [linspace_length] at this) hn')
    rw [if_neg (by simp), hmod, binVec_sum]
    simp only [Bool.false_eq_true, false_or, digitize_lt_iff x s e n hse hn]

/-- A masked entry is forced to the one-hot of bin 0. -/
lemma mtx2bins_masked (x s e : ℚ) (n : ℕ) : mtx2bins x s e n true = binVec n 0 := rfl

/-! ### Claim C1 -/

/-- A raw-geometry example whose (0,1) pair sits exactly on the upper domain
    edge of the dist channel (distance exactly 20.0, not masked). -/
def exEdge : Ref6D 2 :=
  { dist := fun i j => if i = j then 0 else 20
    omega := fun _ _ => 0
    theta := fun _ _ => 0
    phi := fun _ _ => 0 }

/-- C1 counterexample: at a raw distance of exactly 20.0 (the upper domain
    edge) the pair is not masked, digitize assigns the overflow index 37, and
    the one-hot's overflow column is dropped, so the dist bin vector of pair
    (0,1) sums to 0, not 1. -/
theorem binner_sum_edge_cex :
    pairMask exEdge 0 1 = false ∧
    (∑ c : Fin 37, (np_get_6D_binned 3 exEdge).dist 0 1 c) = 0 ∧
    (∑ c : Fin 37, (np_get_6D_binned 3 exEdge).dist 0 1 c) ≠ 1 := by
  have hd : exEdge.dist 0 1 = 20 := by
    show (if (0 : Fin 2) = 1 then (0 : ℚ) else 20) = 20
    rw [if_neg (by decide)]
  have hm : pairMask exEdge 0 1 = false := by decide
  have hsum : (∑ c : Fin 37, (np_get_6D_binned 3 exEdge).dist 0 1 c) = 0 := by
    have h2 := mtx2bins_sum (exEdge.dist 0 1) 2 20 37 (pairMask exEdge 0 1)
      (by norm_num) (by norm_num) (by norm_num)
    have he : (np_get_6D_binned 3 exEdge).dist 0 1 =
        mtx2bins (exEdge.dist 0 1) 2 20 37 (pairMask exEdge 0 1) := rfl
    rw [he, h2, hm, hd]
    norm_num
  exact ⟨hm, hsum, by rw [hsum]; norm_num⟩

/-- C1 (amended): every entry of every bin vector is non-negative, and the
    bin vector of a pair sums to exactly 1 when the pair is masked or its raw
    value lies strictly below the channel's upper domain edge; an unmasked
    value at or above the upper edge (possible exactly at the edge for dist,
    and at the edge value pi for the angle channels) instead yields the
    all-zero vector, which sums to 0. -/
theorem binner_simplex (piQ : ℚ) (hpi : 0 < piQ) (L : ℕ) (r : Ref6D L) (i j : Fin L) :
    (∀ c, 0 ≤ (np_get_6D_binned piQ r).dist i j c) ∧
    (∀ c, 0 ≤ (np_get_6D_binned piQ r).omega i j c) ∧
    (∀ c, 0 ≤ (np_get_6D_binned piQ r).theta i j c) ∧
    (∀ c, 0 ≤ (np_get_6D_binned piQ r).phi i j c) ∧
    (∑ c : Fin 37, (np_get_6D_binned piQ r).dist i j c) =
      (if pairMask r i j = true ∨ r.dist i j < 20 then 1 else 0) ∧
    (∑ c : Fin 25, (np_get_6D_binned piQ r).omega i j c) =
      (if pairMask r i j = true ∨ r.omega i j < piQ then 1 else 0) ∧
    (∑ c : Fin 25, (np_get_6D_binned piQ r).theta i j c) =
      (if pairMask r i j = true ∨ r.theta i j < piQ then 1 else 0) ∧
    (∑ c : Fin 13, (np_get_6D_binned piQ r).phi i j c) =
      (if pairMask r i j = true ∨ r.phi i j < piQ then 1 else 0) := by
  refine ⟨fun c => mtx2bins_nonneg _ _ _ _ _ _, fun c => mtx2bins_nonneg _ _ _ _ _ _,
          fun c => mtx2bins_nonneg _ _ _ _ _ _, fun c => mtx2bins_nonneg _ _ _ _ _ _,
          ?_, ?_, ?_, ?_⟩
  · exact mtx2bins_sum _ 2 20 37 _ (by norm_num) (by norm_num) (by norm_num)
  · exact mtx2bins_sum _ (-piQ) piQ 25 _ (by linarith) (by norm_num) (by norm_num)
  · exact mtx2bins_sum _ (-piQ) piQ 25 _ (by linarith) (by norm_num) (by norm_num)
  · exact mtx2bins_sum _ 0 piQ 13 _ (by linarith) (by norm_num) (by norm_num)

/-- A raw-geometry example with an ordinary valid pair (distance 5, angles 1). -/
def exValid : Ref6D 2 :=
  { dist := fun i j => if i = j then 0 else 5
    omega := fun _ _ => 1
    theta := fun _ _ => 1
    phi := fun _ _ => 1 }

/-- Witness for the amended C1 theorem at a concrete input. -/
theorem binner_simplex_witness :
    0 < (3 : ℚ) ∧
    ((∀ c, 0 ≤ (np_get_6D_binned 3 exValid).dist 0 1 c) ∧
     (∀ c, 0 ≤ (np_get_6D_binned 3 exValid).omega 0 1 c) ∧
     (∀ c, 0 ≤ (np_get_6D_binned 3 exValid).theta 0 1 c) ∧
     (∀ c, 0 ≤ (np_get_6D_binned 3 exValid).phi 0 1 c) ∧
     (∑ c : Fin 37, (np_get_6D_binned 3 exValid).dist 0 1 c) =
       (if pairMask exValid 0 1 = true ∨ exValid.dist 0 1 < 20 then 1 else 0) ∧
     (∑ c : Fin 25, (np_get_6D_binned 3 exValid).omega 0 1 c) =
       (if pairMask exValid 0 1 = true ∨ exValid.omega 0 1 < 3 then 1 else 0) ∧
     (∑ c : Fin 25, (np_get_6D_binned 3 exValid).theta 0 1 c) =
       (if pairMask exValid 0 1 = true ∨ exValid.theta 0 1 < 3 then 1 else 0) ∧
     (∑ c : Fin 13, (np_get_6D_binned 3 exValid).phi 0 1 c) =
       (if pairMask exValid 0 1 = true ∨ exValid.phi 0 1 < 3 then 1 else 0)) :=
  ⟨by decide, binner_simplex 3 (by decide) 2 exValid 0 1⟩

/-! ### Claim C2 -/

/-- C2: a self-pair, a pair with distance above 20.0, or a pair involving
    missing atoms is assigned the one-hot of bin index 0 in all four channels,
    whatever its raw angle values; the mask is the single pairMask computed
    from the distance matrix and the identity pattern, applied uniformly. -/
theorem binner_masked_bin0 (piQ : ℚ) (L : ℕ) (geom : Ref6D L)
    (missing : Fin L → Fin L → Bool) (i j : Fin L)
    (h : i = j ∨ 20 < geom.dist i j ∨ missing i j = true) :
    pairMask (np_get_6D geom missing) i j = true ∧
    (np_get_6D_binned_full piQ geom missing).dist i j = binVec 37 0 ∧
    (np_get_6D_binned_full piQ geom missing).omega i j = binVec 25 0 ∧
    (np_get_6D_binned_full piQ geom missing).theta i j = binVec 25 0 ∧
    (np_get_6D_binned_full piQ geom missing).phi i j = binVec 13 0 := by
  have hmask : pairMask (np_get_6D geom missing) i j = true := by
    unfold pairMask np_get_6D
    rcases h with h | h | h
    · simp [h]
    · rcases hm : missing i j with _ | _
      · simp only [hm, Bool.false_eq_true, if_neg]
        simp [h]
      · simp only [hm, if_pos]
        have : (20 : ℚ) < 10 ^ 8 := by norm_num
        simp [this]
    · simp [h]
      norm_num
  refine ⟨hmask, ?_, ?_, ?_, ?_⟩ <;>
    simp only [np_get_6D_binned_full, np_get_6D_binned, hmask, mtx2bins_masked]

/-- Witness for C2 at a concrete input: the self-pair (0,0) of a length-1
    chain. -/
theorem binner_masked_bin0_witness :
    ((0 : Fin 1) = 0 ∨ 20 < exValid.dist 0 0 ∨ false = true) ∧
    (pairMask (np_get_6D { dist := fun _ _ => 0, omega := fun _ _ => 0,
                           theta := fun _ _ => 0, phi := fun _ _ => 0 }
                         (fun _ _ => false)) (0 : Fin 1) 0 = true ∧
     (np_get_6D_binned_full 3 { dist := fun _ _ => 0, omega := fun _ _ => 0,
                                theta := fun _ _ => 0, phi := fun _ _ => 0 }
                              (fun _ _ => false)).dist (0 : Fin 1) 0 = binVec 37 0 ∧
     (np_get_6D_binned_full 3 { dist := fun _ _ => 0, omega := fun _ _ => 0,
                                theta := fun _ _ => 0, phi := fun _ _ => 0 }
                              (fun _ _ => false)).omega (0 : Fin 1) 0 = binVec 25 0 ∧
     (np_get_6D_binned_full 3 { dist := fun _ _ => 0, omega := fun _ _ => 0,
                                theta := fun _ _ => 0, phi := fun _ _ => 0 }
                              (fun _ _ => false)).theta (0 : Fin 1) 0 = binVec 25 0 ∧
     (np_get_6D_binned_full 3 { dist := fun _ _ => 0, omega := fun _ _ => 0,
                                theta := fun _ _ => 0, phi := fun _ _ => 0 }
                              (fun _ _ => false)).phi (0 : Fin 1) 0 = binVec 13 0) :=
  ⟨Or.inl rfl,
   binner_masked_bin0 3 1 _ (fun _ _ => false) 0 0 (Or.inl rfl)⟩

/-! ### Claim C10 -/

/-- C10: an unmasked pair whose raw distance is strictly below the lower
    domain edge 2.0 is assigned the one-hot of bin index 0 in the dist
    channel - the same reserved vector that every masked pair receives, so
    below-range pairs are indistinguishable from masked ones in the output. -/
theorem dist_below_range_bin0 (piQ : ℚ) (L : ℕ) (r : Ref6D L) (i j : Fin L)
    (hm : pairMask r i j = false) (hd : r.dist i j < 2) :
    (np_get_6D_binned piQ r).dist i j = binVec 37 0 ∧
    (∀ (M : ℕ) (r' : Ref6D M) (i' j' : Fin M), pairMask r' i' j' = true →
      (np_get_6D_binned piQ r').dist i' j' = binVec 37 0) := by
  constructor
  · have hz : digitize (r.dist i j) (linspace 2 20 37) = 0 :=
      digitize_eq_zero_of_lt _ 2 20 37 (by norm_num) (by norm_num) hd
    simp only [np_get_6D_binned, mtx2bins, hm, Bool.false_eq_true, if_neg, hz,
      Nat.zero_mod, ite_self]
  · intro M r' i' j' hm'
    simp only [np_get_6D_binned, hm', mtx2bins_masked]

/-- Witness for C10: a concrete unmasked pair at distance 1 < 2. -/
def exBelow : Ref6D 2 :=
  { dist := fun i j => if i = j then 0 else 1
    omega := fun _ _ => 0
    theta := fun _ _ => 0
    phi := fun _ _ => 0 }

theorem dist_below_range_bin0_witness :
    (pairMask exBelow 0 1 = false ∧ exBelow.dist 0 1 < 2) ∧
    ((np_get_6D_binned 3 exBelow).dist 0 1 = binVec 37 0 ∧
     (∀ (M : ℕ) (r' : Ref6D M) (i' j' : Fin M), pairMask r' i' j' = true →
       (np_get_6D_binned 3 r').dist i' j' = binVec 37 0)) :=
  ⟨⟨by decide, by decide⟩, dist_below_range_bin0 3 2 exBelow 0 1 (by decide) (by decide)⟩

/-! ## SequenceRelaxer: `_get_seq` (model.py lines 40-57)

jax.nn.softmax and jax.nn.log_softmax are library numerics built on the
transcendental primitives exp and log; these two primitives are abstracted
into an explicit parameter record so the embedding stays executable - no
claim depends on their analytic properties. -/

/-- The transcendental primitives used by softmax / log_softmax. -/
structure NumK where
  exp : ℚ → ℚ
  log : ℚ → ℚ

/-- jax.nn.softmax along the last axis: exp x_i / sum_j exp x_j. -/
def softmaxK (K : NumK) (v : Fin n → ℚ) : Fin n → ℚ :=
  fun i => K.exp (v i) / ∑ j, K.exp (v j)

/-- jax.nn.log_softmax along the last axis: x_i - log (sum_j exp x_j). -/
def logSoftmaxK (K : NumK) (v : Fin n → ℚ) : Fin n → ℚ :=
  fun i => v i - K.log (∑ j, K.exp (v j))

/-- jnp.argmax over a vector given as a list: index of the first maximum. -/
def argmaxIdx (l : List ℚ) : ℕ :=
  match l with
  | [] => 0
  | x :: xs =>
    (xs.foldl (fun (acc : ℕ × ℚ × ℕ) y =>
      if acc.2.1 < y then (acc.2.2, y, acc.2.2 + 1) else (acc.1, acc.2.1, acc.2.2 + 1))
      (0, x, 1)).1

/-- jax.nn.one_hot(k, 20): a length-20 one-hot row (all zero off range). -/
def oneHot20 (k : ℕ) : Fin 20 → ℚ :=
  fun j => if (j : ℕ) = k then 1 else 0

/-- jax .at[pos,:].set(ref): row pos[k] becomes ref k; rows outside pos keep
    their value (pos is duplicate-free in the source: np.arange, so the
    first-occurrence index is the unique one). -/
def setRows (pos : List (Fin L)) (ref : ℕ → Fin 20 → ℚ)
    (x : Fin L → Fin 20 → ℚ) : Fin L → Fin 20 → ℚ :=
  fun i j => if i ∈ pos then ref (pos.indexOf i) j else x i j

/-- The five parallel representations in the seq dict built by `_get_seq`. -/
structure SeqViews (L : ℕ) where
  input : Fin L → Fin 20 → ℚ
  logits : Fin L → Fin 20 → ℚ
  soft : Fin L → Fin 20 → ℚ
  hard : Fin L → Fin 20 → ℚ
  pseudo : Fin L → Fin 20 → ℚ

/-- The soft / temp / hard control knobs of opt consumed by `_get_seq`. -/
structure SeqOpt where
  temp : ℚ
  softW : ℚ
  hardW : ℚ

/-- `_get_seq` (model.py lines 40-57).  posCfg is opt["pos"] when the
    protocol is "partial" and a position set is configured (None otherwise);
    aatype is the batch's reference amino-acid types, whose one-hot rows
    overwrite the configured rows of every view.  jax.lax.stop_gradient is
    the identity on forward values, which is all this value-level embedding
    records. -/
def get_seq (K : NumK) (posCfg : Option (List (Fin L))) (aatype : ℕ → Fin 20)
    (pSeq : Fin L → Fin 20 → ℚ) (o : SeqOpt) : SeqViews L :=
  let input := pSeq
  let logits := fun i j => 2 * input i j
  let soft := fun i => softmaxK K (fun j => logits i j / o.temp)
  let hard0 := fun i => oneHot20 (argmaxIdx (List.ofFn (soft i)))
  let hard := fun i j => (hard0 i j - soft i j) + soft i j
  let pseudo1 := fun i j => o.softW * soft i j + (1 - o.softW) * input i j
  let pseudo := fun i j => o.hardW * hard i j + (1 - o.hardW) * pseudo1 i j
  let views : SeqViews L := ⟨input, logits, soft, hard, pseudo⟩
  match posCfg with
  | none => views
  | some pos =>
    { input := setRows pos (fun k => oneHot20 (aatype k)) views.input
      logits := setRows pos (fun k => oneHot20 (aatype k)) views.logits
      soft := setRows pos (fun k => oneHot20 (aatype k)) views.soft
      hard := setRows pos (fun k => oneHot20 (aatype k)) views.hard
      pseudo := setRows pos (fun k => oneHot20 (aatype k)) views.pseudo }

/-! ### Claim C3 -/

/-- C3: with no position overwrite configured, soft is
    softmax(2*input/temp), hard's forward value is the one-hot of soft's
    row-wise argmax, and the two-stage blend gives: weights (1,1) make
    pseudo equal hard exactly, and weights (0,0) make pseudo equal the
    input logits exactly. -/
theorem relaxer_blend (K : NumK) (L : ℕ) (aatype : ℕ → Fin 20)
    (pSeq : Fin L → Fin 20 → ℚ) (temp : ℚ) :
    (get_seq K (none : Option (List (Fin L))) aatype pSeq ⟨temp, 1, 1⟩).soft =
      (fun i => softmaxK K (fun j => 2 * pSeq i j / temp)) ∧
    (get_seq K (none : Option (List (Fin L))) aatype pSeq ⟨temp, 1, 1⟩).hard =
      (fun i => oneHot20 (argmaxIdx (List.ofFn
        ((get_seq K (none : Option (List (Fin L))) aatype pSeq ⟨temp, 1, 1⟩).soft i)))) ∧
    (get_seq K (none : Option (List (Fin L))) aatype pSeq ⟨temp, 1, 1⟩).pseudo =
      (get_seq K (none : Option (List (Fin L))) aatype pSeq ⟨temp, 1, 1⟩).hard ∧
    (get_seq K (none : Option (List (Fin L))) aatype pSeq ⟨temp, 0, 0⟩).pseudo = pSeq ∧
    (get_seq K (none : Option (List (Fin L))) aatype pSeq ⟨temp, 0, 0⟩).input = pSeq := by
  refine ⟨rfl, ?_, ?_, ?_, rfl⟩
  · funext i j
    simp only [get_seq]
    ring
  · funext i j
    simp only [get_seq]
    ring
  · funext i j
    simp only [get_seq]
    ring

/-! ## LossComposer: `_get_loss` (model.py lines 59-85)

The aux["losses"] dict and opt["weights"] dict are string-keyed; keys are
embedded as the enumeration LKey.  jax.tree_map over two dicts requires the
two tree structures (key sets) to coincide and raises otherwise; dictZipWith
embeds exactly that, returning none on a structure mismatch. -/

inductive LKey where
  | dist | omega | theta | phi | bkg | cce
deriving DecidableEq, BEq

/-- The per-pair-channel prediction matrices (TrRosetta outputs or
    background features): per channel an L x L matrix of bin logits. -/
structure Preds (L : ℕ) where
  dist : Fin L → Fin L → Fin 37 → ℚ
  omega : Fin L → Fin L → Fin 25 → ℚ
  theta : Fin L → Fin L → Fin 25 → ℚ
  phi : Fin L → Fin L → Fin 13 → ℚ

/-- .mean() over the two pair axes of an m x m matrix. -/
def pairMean {m : ℕ} (f : Fin m → Fin m → ℚ) : ℚ :=
  (∑ i, ∑ j, f i j) / ((m : ℚ) * (m : ℚ))

/-- x[:, pos][pos, :]: the sub-matrix whose rows and columns are selected by
    the position index list. -/
def restrictPos {α : Type} (pos : List (Fin L)) (x : Fin L → Fin L → α) :
    Fin pos.length → Fin pos.length → α :=
  fun a b => x (pos.get a) (pos.get b)

/-- One channel of the cce loss: -(q * log_p).sum(-1).mean(). -/
def cceChan {m b : ℕ} (q lp : Fin m → Fin m → Fin b → ℚ) : ℚ :=
  -(pairMean (fun i j => ∑ c, q i j c * lp i j c))

/-- One channel of the bkg loss:
    -(p * (log_p - log_q)).sum(-1).mean() over the full matrix. -/
def bkgChan {L b : ℕ} (K : NumK) (out bkg : Fin L → Fin L → Fin b → ℚ) : ℚ :=
  -(pairMean (fun i j => ∑ c,
    softmaxK K (out i j) c * (logSoftmaxK K (out i j) c - logSoftmaxK K (bkg i j) c)))

/-- aux["losses"]["bkg"]: the four channel entries, each computed from the
    full L x L predicted matrix (no position restriction). -/
def bkgPart (K : NumK) (bkg out : Preds L) : List (LKey × ℚ) :=
  [(LKey.dist, bkgChan K out.dist bkg.dist),
   (LKey.omega, bkgChan K out.omega bkg.omega),
   (LKey.theta, bkgChan K out.theta bkg.theta),
   (LKey.phi, bkgChan K out.phi bkg.phi)]

/-- aux["losses"]["cce"] in the protocol with a configured position set:
    log_p is first restricted to log_p[:, pos][pos, :] (model.py lines
    73-75), then the cross entropy against the target feats is taken. -/
def ccePart (K : NumK) (pos : List (Fin L)) (feats : Preds pos.length)
    (out : Preds L) : List (LKey × ℚ) :=
  [(LKey.dist, cceChan feats.dist
      (restrictPos pos (fun i j => logSoftmaxK K (out.dist i j)))),
   (LKey.omega, cceChan feats.omega
      (restrictPos pos (fun i j => logSoftmaxK K (out.omega i j)))),
   (LKey.theta, cceChan feats.theta
      (restrictPos pos (fun i j => logSoftmaxK K (out.theta i j)))),
   (LKey.phi, cceChan feats.phi
      (restrictPos pos (fun i j => logSoftmaxK K (out.phi i j))))]

/-- aux["losses"] built by `_get_loss` in the redesign protocol with a
    configured position set: both the bkg and the cce terms are active. -/
def lossesTreePM (K : NumK) (pos : List (Fin L)) (feats : Preds pos.length)
    (bkg out : Preds L) : List (LKey × List (LKey × ℚ)) :=
  [(LKey.bkg, bkgPart K bkg out), (LKey.cce, ccePart K pos feats out)]

/-- jax.tree_map(f, t1, t2) over two dicts: requires the key structures to
    coincide and fails (raises ValueError) otherwise. -/
def dictZipWith {α β γ : Type} (f : α → β → Option γ) :
    List (LKey × α) → List (LKey × β) → Option (List (LKey × γ))
  | [], [] => some []
  | (k, a) :: xs, (k2, b) :: ys =>
    if k = k2 then
      match f a b, dictZipWith f xs ys with
      | some c, some rest => some ((k, c) :: rest)
      | _, _ => none
    else none
  | _, _ => none

/-- sum(jax.tree_leaves(t)) for the two-level losses tree. -/
def sumLeaves (t : List (LKey × List (LKey × ℚ))) : ℚ :=
  (t.map (fun kv => (kv.2.map Prod.snd).sum)).sum

/-- jax.tree_map(lambda l, w: l * w, losses, weights) (model.py line 83). -/
def weightedTree (losses weights : List (LKey × List (LKey × ℚ))) :
    Option (List (LKey × List (LKey × ℚ))) :=
  dictZipWith (fun l w => dictZipWith (fun a b => some (a * b)) l w) losses weights

/-- The scalar loss of `_get_loss`: sum of the weighted leaves, or none when
    the weights structure mismatches the losses structure. -/
def weightedTotal (losses weights : List (LKey × List (LKey × ℚ))) : Option ℚ :=
  (weightedTree losses weights).map sumLeaves

/-- `_get_loss` (model.py lines 59-85) in the redesign protocol with a
    configured position set: returns the scalar weighted loss and the losses
    breakdown, or none when the weight tree structure mismatches. -/
def get_lossPM (K : NumK) (pos : List (Fin L)) (feats : Preds pos.length)
    (bkg out : Preds L) (weights : List (LKey × List (LKey × ℚ))) :
    Option (ℚ × List (LKey × List (LKey × ℚ))) :=
  (weightedTotal (lossesTreePM K pos feats bkg out) weights).map
    (fun s => (s, lossesTreePM K pos feats bkg out))

/-- The cce entries depend only on the pos x pos sub-matrix of the
    predictions. -/
lemma ccePart_congr (K : NumK) (L : ℕ) (pos : List (Fin L))
    (feats : Preds pos.length) (out out' : Preds L)
    (hd : ∀ a b : Fin pos.length,
      out.dist (pos.get a) (pos.get b) = out'.dist (pos.get a) (pos.get b))
    (ho : ∀ a b : Fin pos.length,
      out.omega (pos.get a) (pos.get b) = out'.omega (pos.get a) (pos.get b))
    (ht : ∀ a b : Fin pos.length,
      out.theta (pos.get a) (pos.get b) = out'.theta (pos.get a) (pos.get b))
    (hp : ∀ a b : Fin pos.length,
      out.phi (pos.get a) (pos.get b) = out'.phi (pos.get a) (pos.get b)) :
    ccePart K pos feats out = ccePart K pos feats out' := by
  have rd : restrictPos pos (fun i j => logSoftmaxK K (out.dist i j)) =
      restrictPos pos (fun i j => logSoftmaxK K (out'.dist i j)) := by
    funext a b; simp only [restrictPos]; rw [hd a b]
  have ro : restrictPos pos (fun i j => logSoftmaxK K (out.omega i j)) =
      restrictPos pos (fun i j => logSoftmaxK K (out'.omega i j)) := by
    funext a b; simp only [restrictPos]; rw [ho a b]
  have rt : restrictPos pos (fun i j => logSoftmaxK K (out.theta i j)) =
      restrictPos pos (fun i j => logSoftmaxK K (out'.theta i j)) := by
    funext a b; simp only [restrictPos]; rw [ht a b]
  have rp : restrictPos pos (fun i j => logSoftmaxK K (out.phi i j)) =
      restrictPos pos (fun i j => logSoftmaxK K (out'.phi i j)) := by
    funext a b; simp only [restrictPos]; rw [hp a b]
  unfold ccePart
  rw [rd, ro, rt, rp]

/-! ### Claim C5 -/

/-- C5 (amended): the cce term is restricted to the sub-matrix selected by
    the configured position index set (it depends only on predictions at
    pos x pos); but those configured positions are precisely the ones whose
    sequence rows `_get_seq` overwrites with the reference one-hot - fixed
    positions presenting their true identity, independent of the optimized
    logits - not the free design positions; the bkg term is computed from
    the full predicted matrix. -/
theorem cce_subpos_fixed (K : NumK) (L : ℕ) (pos : List (Fin L))
    (feats : Preds pos.length) (bkg out out' : Preds L) (aatype : ℕ → Fin 20)
    (pSeq : Fin L → Fin 20 → ℚ) (o : SeqOpt) (i : Fin L) (hi : i ∈ pos)
    (hd : ∀ a b : Fin pos.length,
      out.dist (pos.get a) (pos.get b) = out'.dist (pos.get a) (pos.get b))
    (ho : ∀ a b : Fin pos.length,
      out.omega (pos.get a) (pos.get b) = out'.omega (pos.get a) (pos.get b))
    (ht : ∀ a b : Fin pos.length,
      out.theta (pos.get a) (pos.get b) = out'.theta (pos.get a) (pos.get b))
    (hp : ∀ a b : Fin pos.length,
      out.phi (pos.get a) (pos.get b) = out'.phi (pos.get a) (pos.get b)) :
    ccePart K pos feats out = ccePart K pos feats out' ∧
    (get_seq K (some pos) aatype pSeq o).input i =
      oneHot20 ((aatype (pos.indexOf i) : Fin 20) : ℕ) ∧
    (get_seq K (some pos) aatype pSeq o).logits i =
      oneHot20 ((aatype (pos.indexOf i) : Fin 20) : ℕ) ∧
    (get_seq K (some pos) aatype pSeq o).soft i =
      oneHot20 ((aatype (pos.indexOf i) : Fin 20) : ℕ) ∧
    (get_seq K (some pos) aatype pSeq o).hard i =
      oneHot20 ((aatype (pos.indexOf i) : Fin 20) : ℕ) ∧
    (get_seq K (some pos) aatype pSeq o).pseudo i =
      oneHot20 ((aatype (pos.indexOf i) : Fin 20) : ℕ) ∧
    (lossesTreePM K pos feats bkg out).lookup LKey.bkg = some (bkgPart K bkg out) ∧
    (lossesTreePM K pos feats bkg out).lookup LKey.cce = some (ccePart K pos feats out) := by
  refine ⟨ccePart_congr K L pos feats out out' hd ho ht hp, ?_, ?_, ?_, ?_, ?_, rfl, rfl⟩ <;>
    · funext j
      simp only [get_seq, setRows]
      rw [if_pos hi]

/-- Concrete data for the C5 and C6 theorems: zero kernel, position list
    [0] of a length-2 design, one-hot target features, and predictions that
    differ only at the fixed pair (0,0) resp. only at the free pair (1,1). -/
def Kz : NumK := ⟨fun _ => 0, fun _ => 0⟩

def pos1 : List (Fin 2) := [0]

def featsQ : Preds 1 :=
  { dist := fun _ _ c => if c = 0 then 1 else 0
    omega := fun _ _ c => if c = 0 then 1 else 0
    theta := fun _ _ c => if c = 0 then 1 else 0
    phi := fun _ _ c => if c = 0 then 1 else 0 }

def outZ2 : Preds 2 :=
  { dist := fun _ _ _ => 0, omega := fun _ _ _ => 0
    theta := fun _ _ _ => 0, phi := fun _ _ _ => 0 }

def outD00 : Preds 2 :=
  { dist := fun i j c => if i = 0 ∧ j = 0 ∧ c = 0 then 1 else 0
    omega := fun _ _ _ => 0, theta := fun _ _ _ => 0, phi := fun _ _ _ => 0 }

def outD11 : Preds 2 :=
  { dist := fun i j c => if i = 1 ∧ j = 1 ∧ c = 0 then 1 else 0
    omega := fun _ _ _ => 0, theta := fun _ _ _ => 0, phi := fun _ _ _ => 0 }

/-- C5 counterexample: with configured positions [0] on a length-2 design,
    position 0 is fixed (every view's row 0 equals the reference one-hot,
    for two inputs differing at row 0), yet the cce term ignores changes at
    the free pair (1,1) and changes with the fixed pair (0,0) - so the cce
    sub-matrix is selected at the fixed positions, not the design positions
    being optimized. -/
theorem cce_design_positions_cex :
    (get_seq Kz (some pos1) (fun _ => 0) (fun _ _ => 0) ⟨1, 1, 1⟩).pseudo 0 = oneHot20 0 ∧
    (get_seq Kz (some pos1) (fun _ => 0) (fun _ _ => 7) ⟨1, 1, 1⟩).pseudo 0 = oneHot20 0 ∧
    ccePart Kz pos1 featsQ outZ2 = ccePart Kz pos1 featsQ outD11 ∧
    ccePart Kz pos1 featsQ outZ2 ≠ ccePart Kz pos1 featsQ outD00 := by
  have hrow : ∀ pSeq : Fin 2 → Fin 20 → ℚ,
      (get_seq Kz (some pos1) (fun _ => 0) pSeq ⟨1, 1, 1⟩).pseudo 0 = oneHot20 0 := by
    intro pSeq
    funext j
    simp only [get_seq, setRows]
    rw [if_pos (by decide : (0 : Fin 2) ∈ pos1)]
    simp [Fin.val_zero]
  have heq : ccePart Kz pos1 featsQ outZ2 = ccePart Kz pos1 featsQ outD11 := by
    refine ccePart_congr Kz 2 pos1 featsQ outZ2 outD11 ?_ ?_ ?_ ?_ <;>
      · intro a b
        rw [Fin.eq_zero a, Fin.eq_zero b]
        funext c
        simp [outZ2, outD11, pos1, Fin.ext_iff]
  have e0 : cceChan featsQ.dist
      (restrictPos pos1 (fun i j => logSoftmaxK Kz (outZ2.dist i j))) = 0 := by
    simp [cceChan, pairMean, restrictPos, logSoftmaxK, Kz, outZ2, featsQ]
  have e1 : cceChan featsQ.dist
      (restrictPos pos1 (fun i j => logSoftmaxK Kz (outD00.dist i j))) = -1 := by
    simp only [cceChan, pairMean, restrictPos, logSoftmaxK, Kz, outD00, featsQ]
    norm_num [Fin.sum_univ_one, pos1, ite_mul, mul_ite,
      Finset.sum_ite_eq']
  have hne : ccePart Kz pos1 featsQ outZ2 ≠ ccePart Kz pos1 featsQ outD00 := by
    intro h
    have hh := congrArg (fun l => l.head?) h
    simp only [ccePart, List.head?, e0, e1, Option.some.injEq, Prod.mk.injEq] at hh
    norm_num at hh
  exact ⟨hrow _, hrow _, heq, hne⟩

/-- Witness for the amended C5 theorem at a concrete input. -/
theorem cce_subpos_fixed_witness :
    ((0 : Fin 2) ∈ pos1) ∧
    (ccePart Kz pos1 featsQ outZ2 = ccePart Kz pos1 featsQ outZ2 ∧
     (get_seq Kz (some pos1) (fun _ => 0) (fun _ _ => 0) ⟨1, 1, 1⟩).input 0 =
       oneHot20 (((fun _ => (0 : Fin 20)) (pos1.indexOf 0) : Fin 20) : ℕ) ∧
     (get_seq Kz (some pos1) (fun _ => 0) (fun _ _ => 0) ⟨1, 1, 1⟩).logits 0 =
       oneHot20 (((fun _ => (0 : Fin 20)) (pos1.indexOf 0) : Fin 20) : ℕ) ∧
     (get_seq Kz (some pos1) (fun _ => 0) (fun _ _ => 0) ⟨1, 1, 1⟩).soft 0 =
       oneHot20 (((fun _ => (0 : Fin 20)) (pos1.indexOf 0) : Fin 20) : ℕ) ∧
     (get_seq Kz (some pos1) (fun _ => 0) (fun _ _ => 0) ⟨1, 1, 1⟩).hard 0 =
       oneHot20 (((fun _ => (0 : Fin 20)) (pos1.indexOf 0) : Fin 20) : ℕ) ∧
     (get_seq Kz (some pos1) (fun _ => 0) (fun _ _ => 0) ⟨1, 1, 1⟩).pseudo 0 =
       oneHot20 (((fun _ => (0 : Fin 20)) (pos1.indexOf 0) : Fin 20) : ℕ) ∧
     (lossesTreePM Kz pos1 featsQ outZ2 outZ2).lookup LKey.bkg =
       some (bkgPart Kz outZ2 outZ2) ∧
     (lossesTreePM Kz pos1 featsQ outZ2 outZ2).lookup LKey.cce =
       some (ccePart Kz pos1 featsQ outZ2)) :=
  ⟨by decide,
   cce_subpos_fixed Kz 2 pos1 featsQ outZ2 outZ2 outZ2 (fun _ => 0) (fun _ _ => 0)
     ⟨1, 1, 1⟩ 0 (by decide) (fun _ _ => rfl) (fun _ _ => rfl) (fun _ _ => rfl)
     (fun _ _ => rfl)⟩

/-! ### Claim C6 -/

/-- The two weight/loss trees have identical key structure. -/
def sameShape (a b : List (LKey × List (LKey × ℚ))) : Prop :=
  a.map (fun kv => (kv.1, kv.2.map Prod.fst)) =
    b.map (fun kv => (kv.1, kv.2.map Prod.fst))

lemma dictZip_mul_eq (l w : List (LKey × ℚ)) (h : l.map Prod.fst = w.map Prod.fst) :
    dictZipWith (fun a b => some (a * b)) l w =
      some ((l.zip w).map (fun ab => (ab.1.1, ab.1.2 * ab.2.2))) := by
  induction l generalizing w with
  | nil =>
    cases w with
    | nil => rfl
    | cons y ys => simp at h
  | cons x xs ih =>
    cases w with
    | nil => simp at h
    | cons y ys =>
      obtain ⟨k, a⟩ := x
      obtain ⟨k2, b⟩ := y
      simp only [List.map_cons, List.cons.injEq] at h
      obtain ⟨hk, hr⟩ := h
      subst hk
      simp [dictZipWith, ih ys hr]

lemma weightedTree_eq (ls ws : List (LKey × List (LKey × ℚ))) (h : sameShape ls ws) :
    weightedTree ls ws = some ((ls.zip ws).map (fun lw =>
      (lw.1.1, (lw.1.2.zip lw.2.2).map (fun ab => (ab.1.1, ab.1.2 * ab.2.2))))) := by
  unfold sameShape at h
  unfold weightedTree
  induction ls generalizing ws with
  | nil =>
    cases ws with
    | nil => rfl
    | cons y ys => simp at h
  | cons x xs ih =>
    cases ws with
    | nil => simp at h
    | cons y ys =>
      obtain ⟨k, l⟩ := x
      obtain ⟨k2, w⟩ := y
      simp only [List.map_cons, List.cons.injEq, Prod.mk.injEq] at h
      obtain ⟨⟨hk, hkeys⟩, hrest⟩ := h
      subst hk
      simp [dictZipWith, dictZip_mul_eq l w hkeys, ih ys hrest]

/-- C6 (amended): a loss term or channel with no corresponding entry in the
    configured weights mapping makes the weighted total fail with a tree
    structure mismatch (it does not silently contribute zero); when the
    weights tree carries exactly the loss tree's keys, the scalar loss is
    the sum of loss*weight over all entries, so an entry contributes zero
    exactly when its configured weight is zero. -/
theorem weighted_total_matched (ls ws : List (LKey × List (LKey × ℚ)))
    (h : sameShape ls ws) :
    weightedTotal ls ws = some (((ls.zip ws).map (fun lw =>
      ((lw.1.2.zip lw.2.2).map (fun ab => ab.1.2 * ab.2.2)).sum)).sum) := by
  unfold weightedTotal
  rw [weightedTree_eq ls ws h]
  simp [sumLeaves, List.map_map, Function.comp_def]

/-- The four channel weights 1/6, 1/6, 2/6, 2/6 set by prep_inputs. -/
def w4 : List (LKey × ℚ) :=
  [(LKey.dist, 1/6), (LKey.omega, 1/6), (LKey.theta, 2/6), (LKey.phi, 2/6)]

/-- C6 counterexample: when the cce term has no entry in the weights
    mapping, the weighted total is a structure-mismatch failure (none), not
    a total in which the cce term contributes zero. -/
theorem loss_missing_weight_cex :
    get_lossPM Kz pos1 featsQ outZ2 outZ2 [(LKey.bkg, w4)] = none ∧
    weightedTotal (lossesTreePM Kz pos1 featsQ outZ2 outZ2) [(LKey.bkg, w4)] = none := by
  exact ⟨rfl, rfl⟩

/-- Witness for the amended C6 theorem at a concrete input (with a zero
    weight on the single entry, which therefore contributes zero). -/
def ls0 : List (LKey × List (LKey × ℚ)) := [(LKey.cce, [(LKey.dist, 2)])]

def ws0 : List (LKey × List (LKey × ℚ)) := [(LKey.cce, [(LKey.dist, 0)])]

theorem weighted_total_matched_witness :
    sameShape ls0 ws0 ∧
    weightedTotal ls0 ws0 = some (((ls0.zip ws0).map (fun lw =>
      ((lw.1.2.zip lw.2.2).map (fun ab => ab.1.2 * ab.2.2)).sum)).sum) :=
  ⟨by unfold sameShape; decide, weighted_total_matched ls0 ws0 (by unfold sameShape; decide)⟩

/-! ## DesignSession.run (model.py lines 141-188)

The jax.random primitives (split, choice) and the jitted ensemble model
are opaque collaborators; they enter as explicit parameter records.  The
aux tree and the parameter tree are abstracted as ℚ-valued functions over
opaque leaf-index types ι and γ, so tree_map(stack/mean) becomes a
pointwise mean. -/

/-- Opaque PRNG key (the session's jax.random state). -/
abbrev Key := ℕ

/-- The jax.random primitives used by run: split advances the key, choice
    draws model.num indices from arange(5) without replacement. -/
structure RNG where
  split : Key → Key × Key
  choice : Key → ℕ → List ℕ

/-- The jitted model of `_get_model` (lines 87-94), per ensemble instance n:
    f is the plain forward `_model` (loss and aux tree), g the gradient
    produced by jax's value_and_grad of the same function. -/
structure Model (γ ι : Type) where
  f : ℕ → (γ → ℚ) → ℚ × (ι → ℚ)
  g : ℕ → (γ → ℚ) → γ → ℚ

/-- jax.value_and_grad(_model, has_aux=True): its value component is
    exactly the plain function's value. -/
def valueAndGrad (M : Model γ ι) (n : ℕ) (p : γ → ℚ) : (ℚ × (ι → ℚ)) × (γ → ℚ) :=
  (M.f n p, M.g n p)

/-- One iteration of the serial loop (lines 162-170): with backprop the
    grad_fn yields loss, aux and gradient; without it only the forward
    function runs (the gradient slot stays unused downstream). -/
def instanceRun (M : Model γ ι) (p : γ → ℚ) (backprop : Bool) (n : ℕ) :
    ℚ × (ι → ℚ) × (γ → ℚ) :=
  if backprop then
    ((valueAndGrad M n p).1.1, (valueAndGrad M n p).1.2, (valueAndGrad M n p).2)
  else ((M.f n p).1, (M.f n p).2, fun _ => 0)

/-- jnp.stack(vs).mean(0) on scalars: sum divided by length. -/
def meanQ (l : List ℚ) : ℚ := l.sum / (l.length : ℚ)

/-- Lines 160-179: run the sampled instances serially, then average when
    more than one was sampled, else take the single collected result
    directly; the empty instance list hits _loss[0] (IndexError: none). -/
def runCore (M : Model γ ι) (p : γ → ℚ) (backprop : Bool) (ns : List ℕ) :
    Option (ℚ × (ι → ℚ) × (γ → ℚ)) :=
  let rs := ns.map (instanceRun M p backprop)
  if 1 < rs.length then
    some (meanQ (rs.map (fun r => r.1)),
          fun i => meanQ (rs.map (fun r => r.2.1 i)),
          fun x => meanQ (rs.map (fun r => r.2.2 x)))
  else rs.head?

/-- Lines 150-158: model.num and model.sample determine the instance
    indices; the key is split exactly once when sampling is on and num is
    not the full ensemble size 5, otherwise the deterministic prefix of
    arange(5) is used and the key stays untouched. -/
def chooseNs (R : RNG) (sample : Bool) (m : ℕ) (key : Key) : Key × List ℕ :=
  if sample = true ∧ m ≠ 5 then
    ((R.split key).1, R.choice (R.split key).2 m)
  else (key, (List.range 5).take m)

/-- The cached products of a successful run (lines 185-188): _loss, _aux
    (with its model_num record), _grad. -/
structure RunOut (γ ι : Type) where
  loss : ℚ
  aux : ι → ℚ
  modelNum : List ℕ
  grad : γ → ℚ

/-- The session state read or written by run. -/
structure Session (γ ι : Type) where
  key : Key
  seq : γ → ℚ
  num : ℕ
  sample : Bool
  cached : Option (RunOut γ ι)

/-- Modelled from the spec: update_dict (tr/src/utils.py, not under src/)
    merge-updates the stored settings at the start of run ("override
    settings if defined"); for a single entry this replaces the stored
    value exactly when an override is supplied. -/
def updOpt {α : Type} (o : Option α) (v : α) : α := o.getD v

/-- `run` (lines 141-188) as a state transition: first the seq/opt
    overrides are applied, then the instances are chosen (splitting the key
    when sampling), then the serial loop and averaging run, and only at the
    end of a successful call are the cached results overwritten; a failure
    in the loop propagates after the earlier mutations already happened. -/
def runStep (R : RNG) (M : Model γ ι) (seqO : Option (γ → ℚ)) (numO : Option ℕ)
    (backprop : Bool) (s : Session γ ι) : Session γ ι × Option (RunOut γ ι) :=
  let s1 : Session γ ι := { s with seq := updOpt seqO s.seq, num := updOpt numO s.num }
  let kns := chooseNs R s1.sample s1.num s1.key
  let s2 : Session γ ι := { s1 with key := kns.1 }
  match runCore M s2.seq backprop kns.2 with
  | none => (s2, none)
  | some (l, a, g) =>
    let out : RunOut γ ι := ⟨l, a, kns.2, if backprop then g else fun _ => 0⟩
    ({ s2 with cached := some out }, some out)

/-! ### Claim C4 -/

lemma runCore_singleton (M : Model γ ι) (p : γ → ℚ) (backprop : Bool) (n : ℕ) :
    runCore M p backprop [n] = some (instanceRun M p backprop n) := rfl

lemma runCore_of_len (M : Model γ ι) (p : γ → ℚ) (backprop : Bool) (ns : List ℕ)
    (h : 1 < ns.length) :
    runCore M p backprop ns =
      some (meanQ (ns.map (fun n => (instanceRun M p backprop n).1)),
            fun i => meanQ (ns.map (fun n => (instanceRun M p backprop n).2.1 i)),
            fun x => meanQ (ns.map (fun n => (instanceRun M p backprop n).2.2 x))) := by
  unfold runCore
  rw [if_pos (by simpa using h)]
  simp [List.map_map, Function.comp_def]

/-- C4: a run over a fixed sampled index set of size k > 1 returns the
    arithmetic mean of the k individually-computed single-instance losses,
    and the pointwise arithmetic mean of their aux leaves and gradients;
    a single-instance run returns that instance's result directly, with no
    stacking or averaging step. -/
theorem run_ensemble_mean (R : RNG) {γ ι : Type} (M : Model γ ι)
    (seqO : Option (γ → ℚ)) (numO : Option ℕ) (s : Session γ ι)
    (ns : List ℕ) (p : γ → ℚ)
    (hns : ns = (chooseNs R s.sample (updOpt numO s.num) s.key).2)
    (hp : p = updOpt seqO s.seq)
    (hk : 1 < ns.length) :
    (runStep R M seqO numO true s).2 = some
      { loss := meanQ (ns.map (fun n => (instanceRun M p true n).1))
        aux := fun i => meanQ (ns.map (fun n => (instanceRun M p true n).2.1 i))
        modelNum := ns
        grad := fun x => meanQ (ns.map (fun n => (instanceRun M p true n).2.2 x)) } ∧
    (∀ n : ℕ, runCore M p true [n] = some (instanceRun M p true n)) ∧
    (∀ n : ℕ, (instanceRun M p true n).1 = (M.f n p).1) := by
  refine ⟨?_, fun n => runCore_singleton M p true n, fun n => rfl⟩
  subst hp
  simp only [runStep]
  rw [← hns, runCore_of_len M _ true ns hk]
  rfl

/-- Concrete data for the run-claims' witnesses and counterexamples. -/
def Rex : RNG := ⟨fun k => (k + 1, k + 100), fun _ m => List.range m⟩

def pEx : Unit → ℚ := fun _ => 0

def Mex : Model Unit Unit :=
  ⟨fun n _ => ((n : ℚ), fun _ => (n : ℚ)), fun n _ _ => (n : ℚ)⟩

def sEx : Session Unit Unit := ⟨0, pEx, 2, false, none⟩

/-- Witness for C4 at a concrete input: two deterministic instances. -/
theorem run_ensemble_mean_witness :
    ([0, 1] = (chooseNs Rex sEx.sample (updOpt (none : Option ℕ) sEx.num) sEx.key).2 ∧
     pEx = updOpt (none : Option (Unit → ℚ)) sEx.seq ∧
     1 < ([0, 1] : List ℕ).length) ∧
    ((runStep Rex Mex none none true sEx).2 = some
      { loss := meanQ (([0, 1] : List ℕ).map (fun n => (instanceRun Mex pEx true n).1))
        aux := fun i => meanQ (([0, 1] : List ℕ).map
          (fun n => (instanceRun Mex pEx true n).2.1 i))
        modelNum := [0, 1]
        grad := fun x => meanQ (([0, 1] : List ℕ).map
          (fun n => (instanceRun Mex pEx true n).2.2 x)) } ∧
     (∀ n : ℕ, runCore Mex pEx true [n] = some (instanceRun Mex pEx true n)) ∧
     (∀ n : ℕ, (instanceRun Mex pEx true n).1 = (Mex.f n pEx).1)) :=
  ⟨⟨rfl, rfl, by decide⟩,
   run_ensemble_mean Rex Mex none none sEx [0, 1] pEx rfl rfl (by decide)⟩

/-! ### Claim C7 -/

lemma runCore_proj (M : Model γ ι) (p : γ → ℚ) (ns : List ℕ) :
    Option.map (fun r => (r.1, r.2.1)) (runCore M p false ns) =
      Option.map (fun r => (r.1, r.2.1)) (runCore M p true ns) := by
  have hmap1 : List.map (fun r => r.1) (List.map (instanceRun M p false) ns) =
      List.map (fun r => r.1) (List.map (instanceRun M p true) ns) := by
    rw [List.map_map, List.map_map]
    exact List.map_congr_left (fun n _ => rfl)
  have hmap2 : ∀ i, List.map (fun r => r.2.1 i) (List.map (instanceRun M p false) ns) =
      List.map (fun r => r.2.1 i) (List.map (instanceRun M p true) ns) := by
    intro i
    rw [List.map_map, List.map_map]
    exact List.map_congr_left (fun n _ => rfl)
  unfold runCore
  simp only [List.length_map]
  by_cases h : 1 < ns.length
  · rw [if_pos h, if_pos h]
    dsimp only [Option.map_some']
    rw [hmap1]
    refine congrArg some (congrArg (Prod.mk _) ?_)
    funext i
    rw [hmap2 i]
  · rw [if_neg h, if_neg h]
    cases ns with
    | nil => rfl
    | cons n t => rfl

/-- C7: run with backprop = false returns an all-zero gradient shaped like
    the parameter tree, and its loss, aux and recorded instance set are
    identical to the backprop = true run from the same state (the plain
    forward function and the value part of value-and-grad agree); the key
    evolution is also identical. -/
theorem run_backprop_false_value (R : RNG) {γ ι : Type} (M : Model γ ι)
    (seqO : Option (γ → ℚ)) (numO : Option ℕ) (s : Session γ ι) :
    (runStep R M seqO numO false s).1.key = (runStep R M seqO numO true s).1.key ∧
    Option.map (fun o => o.loss) (runStep R M seqO numO false s).2 =
      Option.map (fun o => o.loss) (runStep R M seqO numO true s).2 ∧
    Option.map (fun o => o.aux) (runStep R M seqO numO false s).2 =
      Option.map (fun o => o.aux) (runStep R M seqO numO true s).2 ∧
    Option.map (fun o => o.modelNum) (runStep R M seqO numO false s).2 =
      Option.map (fun o => o.modelNum) (runStep R M seqO numO true s).2 ∧
    (∀ o : RunOut γ ι, (runStep R M seqO numO false s).2 = some o →
      o.grad = fun _ => 0) := by
  have hproj := runCore_proj M (updOpt seqO s.seq)
    (chooseNs R s.sample (updOpt numO s.num) s.key).2
  simp only [runStep]
  cases hf : runCore M (updOpt seqO s.seq) false
      (chooseNs R s.sample (updOpt numO s.num) s.key).2 with
  | none =>
    cases ht : runCore M (updOpt seqO s.seq) true
        (chooseNs R s.sample (updOpt numO s.num) s.key).2 with
    | none => simp
    | some rt => rw [hf, ht] at hproj; simp at hproj
  | some rf =>
    cases ht : runCore M (updOpt seqO s.seq) true
        (chooseNs R s.sample (updOpt numO s.num) s.key).2 with
    | none => rw [hf, ht] at hproj; simp at hproj
    | some rt =>
      rw [hf, ht] at hproj
      obtain ⟨lf, af, gf⟩ := rf
      obtain ⟨lt, at', gt⟩ := rt
      simp only [Option.map_some', Option.some.injEq, Prod.mk.injEq] at hproj
      obtain ⟨hl, ha⟩ := hproj
      subst hl
      subst ha
      simp

/-! ### Claim C8 -/

/-- C8 (amended): the key is advanced (split) exactly once when ensemble
    sampling is enabled AND model.num differs from the full ensemble size 5,
    and left untouched otherwise; when it is untouched the instance indices
    are the deterministic prefix [0..min(num,5)) of arange(5), and when
    sampling happens they are drawn by choice from the split key. -/
theorem run_key_advance (R : RNG) {γ ι : Type} (M : Model γ ι)
    (seqO : Option (γ → ℚ)) (numO : Option ℕ) (backprop : Bool) (s : Session γ ι) :
    (runStep R M seqO numO backprop s).1.key =
      (if s.sample = true ∧ updOpt numO s.num ≠ 5 then (R.split s.key).1 else s.key) ∧
    (chooseNs R s.sample (updOpt numO s.num) s.key).2 =
      (if s.sample = true ∧ updOpt numO s.num ≠ 5
        then R.choice (R.split s.key).2 (updOpt numO s.num)
        else (List.range 5).take (updOpt numO s.num)) ∧
    (List.range 5).take (updOpt numO s.num) = List.range (min (updOpt numO s.num) 5) := by
  have hkey : (runStep R M seqO numO backprop s).1.key =
      (chooseNs R s.sample (updOpt numO s.num) s.key).1 := by
    simp only [runStep]
    cases hc : runCore M (updOpt seqO s.seq) backprop
        (chooseNs R s.sample (updOpt numO s.num) s.key).2 with
    | none => rfl
    | some r => obtain ⟨l, a, g⟩ := r; rfl
  refine ⟨?_, ?_, List.take_range _ _⟩
  · rw [hkey]
    unfold chooseNs
    by_cases h : s.sample = true ∧ updOpt numO s.num ≠ 5
    · rw [if_pos h, if_pos h]
    · rw [if_neg h, if_neg h]
  · unfold chooseNs
    by_cases h : s.sample = true ∧ updOpt numO s.num ≠ 5
    · rw [if_pos h, if_pos h]
    · rw [if_neg h, if_neg h]

/-- C8 counterexample: with sampling enabled but model.num equal to the
    full ensemble size 5, the key is NOT advanced even though sampling is
    enabled, contradicting "advanced exactly once when ensemble sampling is
    enabled". -/
def sEx8 : Session Unit Unit := ⟨0, pEx, 5, true, none⟩

theorem run_key_sample_full_cex :
    sEx8.sample = true ∧
    (runStep Rex Mex none none true sEx8).1.key = sEx8.key ∧
    (Rex.split sEx8.key).1 ≠ sEx8.key := by
  refine ⟨rfl, rfl, by decide⟩

/-! ### Claim C9 -/

/-- C9 (amended): a failed run leaves the cached last-result fields
    unmutated (they are written only at the end of a successful call, which
    overwrites them with the complete result), but run is not all-or-nothing
    for the rest of the session state: the seq/opt overrides and the key
    split are applied before the model loop and persist across a failure. -/
theorem run_failure_state (R : RNG) {γ ι : Type} (M : Model γ ι)
    (seqO : Option (γ → ℚ)) (numO : Option ℕ) (backprop : Bool) (s : Session γ ι) :
    (runStep R M seqO numO backprop s).1.cached =
      ((runStep R M seqO numO backprop s).2).or s.cached ∧
    (runStep R M seqO numO backprop s).1.seq = updOpt seqO s.seq ∧
    (runStep R M seqO numO backprop s).1.num = updOpt numO s.num ∧
    (runStep R M seqO numO backprop s).1.key =
      (chooseNs R s.sample (updOpt numO s.num) s.key).1 ∧
    (runStep R M seqO numO backprop s).1.sample = s.sample := by
  simp only [runStep]
  cases hc : runCore M (updOpt seqO s.seq) backprop
      (chooseNs R s.sample (updOpt numO s.num) s.key).2 with
  | none => exact ⟨rfl, rfl, rfl, rfl, rfl⟩
  | some r => obtain ⟨l, a, g⟩ := r; exact ⟨rfl, rfl, rfl, rfl, rfl⟩

/-- C9 counterexample: a run that fails (here: model.num = 0 with sampling
    on, so the instance list is empty and _loss[0] raises) still mutates
    the session observably - the key has been split before the failure. -/
def sEx9 : Session Unit Unit := ⟨0, pEx, 0, true, none⟩

theorem run_fail_mutates_cex :
    (runStep Rex Mex none none true sEx9).2 = none ∧
    (runStep Rex Mex none none true sEx9).1.key ≠ sEx9.key ∧
    (runStep Rex Mex none none true sEx9).1.cached = sEx9.cached := by
  refine ⟨rfl, by decide, rfl⟩

/-- Witness for C7 at a concrete session. -/
theorem run_backprop_false_value_witness :
    (runStep Rex Mex none none false sEx).1.key =
      (runStep Rex Mex none none true sEx).1.key ∧
    Option.map (fun o => o.loss) (runStep Rex Mex none none false sEx).2 =
      Option.map (fun o => o.loss) (runStep Rex Mex none none true sEx).2 ∧
    Option.map (fun o => o.aux) (runStep Rex Mex none none false sEx).2 =
      Option.map (fun o => o.aux) (runStep Rex Mex none none true sEx).2 ∧
    Option.map (fun o => o.modelNum) (runStep Rex Mex none none false sEx).2 =
      Option.map (fun o => o.modelNum) (runStep Rex Mex none none true sEx).2 ∧
    (∀ o : RunOut Unit Unit, (runStep Rex Mex none none false sEx).2 = some o →
      o.grad = fun _ => 0) :=
  run_backprop_false_value Rex Mex none none sEx

end TrD
